import Mathlib

/-!
A shallow embedding of the xfiles crate: content chunking (src/fs/chunk.rs),
retry (src/remote/retry.rs), the commit DAG (src/dag), the persistent index,
content cache and mock remote adapter (src/store, src/remote/mock.rs), and
the file orchestration layer (src/fs/file.rs, src/lib.rs).
Bytes are modelled as Nat and byte strings as List Nat; the SQLite tables and
the in-memory hash maps are modelled as association lists updated by
insert-or-replace, which matches their key-based semantics.
-/

namespace XF

/-! ### Injectivity of decimal printing of Nat

The mock adapter builds tweet identifiers as `"mock_tweet_{n}"` from an
incrementing counter; freshness of generated identifiers reduces to
injectivity of decimal printing, proved here against core's
`Nat.toDigitsCore`. -/

/-- Decimal digit characters of `n`, most significant first. -/
def natDigits (n : Nat) : List Char :=
  if n < 10 then [Nat.digitChar n]
  else natDigits (n / 10) ++ [Nat.digitChar (n % 10)]
termination_by n
decreasing_by exact Nat.div_lt_self (by omega) (by omega)

theorem natDigits_eq_toDigitsCore (fuel : Nat) :
    ∀ (n : Nat) (ds : List Char), n < fuel →
      Nat.toDigitsCore 10 fuel n ds = natDigits n ++ ds := by
  induction fuel with
  | zero => intro n ds h; omega
  | succ f ih =>
    intro n ds h
    simp only [Nat.toDigitsCore]
    by_cases h0 : n / 10 = 0
    · have hn : n < 10 := by omega
      rw [if_pos h0, natDigits, if_pos hn, Nat.mod_eq_of_lt hn]
      rfl
    · have hn : ¬ n < 10 := by omega
      have hdiv : n / 10 < f := by omega
      rw [if_neg h0, ih (n / 10) _ hdiv]
      conv_rhs => rw [natDigits]
      rw [if_neg hn, List.append_assoc]
      rfl

theorem repr_eq_natDigits (n : Nat) : Nat.repr n = (natDigits n).asString := by
  unfold Nat.repr Nat.toDigits
  rw [natDigits_eq_toDigitsCore (n + 1) n [] (by omega), List.append_nil]

/-- Numeric value of a digit character. -/
def charVal (c : Char) : Nat := c.toNat - '0'.toNat

/-- Value of a most-significant-first digit string. -/
def digitsVal (l : List Char) : Nat := l.foldl (fun a c => a * 10 + charVal c) 0

theorem charVal_digitChar (d : Nat) (h : d < 10) :
    charVal (Nat.digitChar d) = d := by
  interval_cases d <;> decide

theorem digitsVal_append_singleton (l : List Char) (x : Char) :
    digitsVal (l ++ [x]) = digitsVal l * 10 + charVal x := by
  simp [digitsVal, List.foldl_append]

theorem digitsVal_natDigits (n : Nat) : digitsVal (natDigits n) = n := by
  induction n using Nat.strong_induction_on with
  | _ n ih =>
    rw [natDigits]
    split
    · next h =>
      simp [digitsVal, charVal_digitChar n h]
    · next h =>
      rw [digitsVal_append_singleton,
        ih (n / 10) (Nat.div_lt_self (by omega) (by omega)),
        charVal_digitChar (n % 10) (by omega)]
      omega

theorem toString_nat_inj (m n : Nat) (h : toString m = toString n) : m = n := by
  have hr : Nat.repr m = Nat.repr n := h
  rw [repr_eq_natDigits, repr_eq_natDigits] at hr
  have hdata := congrArg String.data hr
  simp only [List.asString] at hdata
  have hdig : natDigits m = natDigits n := hdata
  calc m = digitsVal (natDigits m) := (digitsVal_natDigits m).symm
    _ = digitsVal (natDigits n) := by rw [hdig]
    _ = n := digitsVal_natDigits n

/-! ### Chunker (src/fs/chunk.rs) -/

/-- Maximum size for a single tweet, in bytes (`TWEET_MAX_SIZE`). -/
def TWEET_MAX_SIZE : Nat := 280

/-- The splitting loop of `chunk_content`: while bytes remain, pushes the next
slice of at most `TWEET_MAX_SIZE` bytes and advances past it.  `fuel` bounds
the number of iterations; `content.length` always suffices because every
iteration consumes at least one byte. -/
def chunkGo : Nat → List Nat → List (List Nat)
  | 0, _ => []
  | _ + 1, [] => []
  | fuel + 1, b :: bs =>
    (b :: bs).take TWEET_MAX_SIZE :: chunkGo fuel ((b :: bs).drop TWEET_MAX_SIZE)

/-- Split content into tweet-sized chunks (`chunk_content`).  The Rust
function returns `Result` but has no failure path; the `Ok` payload is
modelled. -/
def chunk_content (content : List Nat) : List (List Nat) :=
  if content.length ≤ TWEET_MAX_SIZE then [content]
  else chunkGo content.length content

/-- Recombine chunks into the original content (`recombine_chunks`); the Rust
`concat` is `List.flatten`.  The `Result` wrapper is again always `Ok`. -/
def recombine_chunks (chunks : List (List Nat)) : List Nat := chunks.flatten

theorem chunkGo_flatten (fuel : Nat) :
    ∀ content : List Nat, content.length ≤ fuel →
      (chunkGo fuel content).flatten = content := by
  induction fuel with
  | zero =>
    intro content h
    have : content = [] := List.eq_nil_of_length_eq_zero (by omega)
    simp [this, chunkGo]
  | succ f ih =>
    intro content h
    match content with
    | [] => simp [chunkGo]
    | b :: bs =>
      rw [chunkGo]
      have hlen : ((b :: bs).drop TWEET_MAX_SIZE).length ≤ f := by
        simp only [List.length_drop]
        have := List.length_cons b bs ▸ h
        simp [TWEET_MAX_SIZE] at *
        omega
      simp only [List.flatten_cons, ih _ hlen, List.take_append_drop]

theorem chunkGo_mem_length (fuel : Nat) :
    ∀ content : List Nat, ∀ s ∈ chunkGo fuel content,
      s.length ≤ TWEET_MAX_SIZE := by
  induction fuel with
  | zero => intro content s hs; simp [chunkGo] at hs
  | succ f ih =>
    intro content s hs
    match content with
    | [] => simp [chunkGo] at hs
    | b :: bs =>
      rw [chunkGo] at hs
      rcases List.mem_cons.mp hs with h | h
      · subst h; exact (List.length_take_le _ _)
      · exact ih _ s h

theorem chunkGo_ne_nil (fuel : Nat) (content : List Nat)
    (hf : 0 < fuel) (hc : content ≠ []) : chunkGo fuel content ≠ [] := by
  match fuel, content with
  | f + 1, b :: bs => rw [chunkGo]; simp

/-! ### Retry policy (src/remote/retry.rs) -/

/-- The retry loop of `retry_with_backoff`.  Successive invocations of the
wrapped operation are modelled as `f : Nat → Except E T`, where `f i` is the
outcome of the `i`-th invocation (0-based).  The returned `Nat` counts the
invocations performed.  `remaining` is `max_attempts - attempt - 1`: the Rust
loop stops after a failed invocation `i` when `i + 1 ≥ max_attempts`, which
(including the saturating `max_attempts = 0` case) is exactly
`max_attempts - 1 - i = 0`.  Backoff sleeping does not affect the returned
value and is not modelled. -/
def retryGo (f : Nat → Except E T) : Nat → Nat → Except E T × Nat
  | remaining, attempt =>
    match f attempt with
    | .ok r => (.ok r, attempt + 1)
    | .error e =>
      match remaining with
      | 0 => (.error e, attempt + 1)
      | r + 1 => retryGo f r (attempt + 1)

/-- Retry a function with exponential backoff (`retry_with_backoff`); returns
the final outcome together with the number of invocations performed. -/
def retry_with_backoff (max_attempts : Nat) (f : Nat → Except E T) :
    Except E T × Nat :=
  retryGo f (max_attempts - 1) 0

/-! ### Errors (src/error.rs) -/

/-- The error taxonomy of `XFilesError`.  Payloads carried by wrapped library
errors are modelled as their display strings. -/
inductive XFilesError where
  | Database (msg : String)
  | Http (msg : String)
  | Serialization (msg : String)
  | Io (msg : String)
  | InvalidEncoding (msg : String)
  | CommitNotFound (id : String)
  | FileNotFound (path : String)
  | InvalidPath (path : String)
  | RateLimitExceeded
  | TwitterApi (msg : String)
  | ContentTooLarge (size : Nat)
  | HashMismatch (expected actual : String)
  | MergeConflict
  | Other (msg : String)
deriving DecidableEq

/-! ### Commit data model (src/dag/commit.rs) -/

/-- Tweet identifiers (`TweetId`). -/
abbrev TweetId := String

/-- A single commit in the DAG (`Commit`).  Timestamps are modelled as `Nat`
instants; `Utc::now()` is modelled by an explicit clock argument at every
creation site. -/
structure Commit where
  id : TweetId
  parents : List TweetId
  timestamp : Nat
  hash : String
  author : String
  mime : String
  size : Nat
  is_head : Bool
deriving DecidableEq

/-- `Commit::new`; `now` stands for `Utc::now()`. -/
def Commit.new (id : TweetId) (parents : List TweetId) (author : String)
    (hash : String) (mime : String) (size : Nat) (now : Nat) : Commit :=
  { id := id, parents := parents, timestamp := now, hash := hash,
    author := author, mime := mime, size := size, is_head := false }

/-! ### Commit graph (src/dag/graph.rs)

The `HashMap<TweetId, Commit>` inside `CommitGraph` is modelled as a list of
commits keyed by `Commit.id` with insert-or-replace update; iteration order of
the map is modelled as list order. -/

abbrev CommitGraph := List Commit

/-- `CommitGraph::add_commit`: map insert keyed by `commit.id`. -/
def CommitGraph.add_commit (g : CommitGraph) (c : Commit) : CommitGraph :=
  if g.any (fun x => x.id == c.id) then
    g.map (fun x => if x.id == c.id then c else x)
  else g ++ [c]

/-- `CommitGraph::get_commit`: map lookup. -/
def CommitGraph.get_commit (g : CommitGraph) (id : TweetId) : Option Commit :=
  g.find? (fun c => c.id == id)

/-- One candidate check of the child scan in `find_head`/`detect_forks`.  The
accumulator is the pair (reachable, queue); a loaded commit whose `parents`
contain `current` and whose id is not yet reachable is appended to both. -/
def scanStep (current : TweetId) (acc : List TweetId × List TweetId)
    (c : Commit) : List TweetId × List TweetId :=
  if c.parents.contains current && !acc.1.contains c.id then
    (acc.1 ++ [c.id], acc.2 ++ [c.id])
  else acc

/-- The forward BFS loop of `find_head`/`detect_forks`: pops the queue front
and, when that id is loaded, scans every loaded commit for children not yet in
the reachable set.  `fuel` bounds the number of iterations; the termination
theorem below shows that `queue.length + g.length` fuel never runs out. -/
def reachLoop (g : CommitGraph) : Nat → List TweetId → List TweetId →
    Option (List TweetId)
  | _, [], reach => some reach
  | 0, _ :: _, _ => none
  | fuel + 1, current :: rest, reach =>
    if g.any (fun c => c.id == current) then
      let p := g.foldl (scanStep current) (reach, rest)
      reachLoop g fuel p.2 p.1
    else
      reachLoop g fuel rest reach

/-- The reachable set from `start` as computed by `find_head`/`detect_forks`
(`start` is pre-inserted into both queue and set). -/
def reachFrom (g : CommitGraph) (start : TweetId) : List TweetId :=
  (reachLoop g (1 + g.length) [start] [start]).getD []

/-- Rust's `Iterator::max_by_key` on `timestamp`: among equally maximal
elements the last one in iteration order wins. -/
def maxByTimestamp : List Commit → Option Commit
  | [] => none
  | c :: cs =>
    some (cs.foldl (fun best x => if best.timestamp ≤ x.timestamp then x else best) c)

/-- `CommitGraph::find_head`: computes the reachable set from `start`, keeps
the loaded commits that no loaded commit lists as a parent, and returns the
most recent of them by timestamp, or `CommitNotFound` when there are none. -/
def CommitGraph.find_head (g : CommitGraph) (start : TweetId) :
    Except XFilesError Commit :=
  let reachable := reachFrom g start
  let heads := reachable.filterMap (fun id =>
    if g.any (fun c => c.parents.contains id) then none
    else CommitGraph.get_commit g id)
  match maxByTimestamp heads with
  | some c => .ok c
  | none => .error (.CommitNotFound start)

/-- One parent check of the backward BFS in `get_ancestors`: an unvisited
parent id is appended to the visited set and the queue. -/
def ancStep (acc : List TweetId × List TweetId) (p : TweetId) :
    List TweetId × List TweetId :=
  if acc.1.contains p then acc else (acc.1 ++ [p], acc.2 ++ [p])

/-- The backward BFS loop of `get_ancestors`: pops the queue front; when that
id is loaded, records the commit and enqueues its unvisited parents.  `fuel`
bounds the number of iterations. -/
def ancLoop (g : CommitGraph) : Nat → List TweetId → List TweetId →
    List Commit → Option (List Commit)
  | _, [], _, anc => some anc
  | 0, _ :: _, _, _ => none
  | fuel + 1, current :: rest, visited, anc =>
    match CommitGraph.get_commit g current with
    | some commit =>
      let p := commit.parents.foldl ancStep (visited, rest)
      ancLoop g fuel p.2 p.1 (anc ++ [commit])
    | none => ancLoop g fuel rest visited anc

/-- Total number of parent references in the loaded graph; it bounds the
number of queue insertions `get_ancestors` can perform. -/
def totalParents (g : CommitGraph) : Nat :=
  (g.map (fun c => c.parents.length)).sum

/-- `CommitGraph::get_ancestors`.  The Rust function returns `Result` but has
no failure path; the `Ok` payload is modelled.  The fuel `1 + totalParents g`
never runs out (termination theorem below). -/
def CommitGraph.get_ancestors (g : CommitGraph) (id : TweetId) : List Commit :=
  (ancLoop g (1 + totalParents g) [id] [id] []).getD []

/-- `CommitGraph::detect_forks`: every reachable id that no loaded commit
lists as a parent.  Always `Ok` in the source. -/
def CommitGraph.detect_forks (g : CommitGraph) (root : TweetId) :
    Except XFilesError (List TweetId) :=
  let reachable := reachFrom g root
  .ok (reachable.filter (fun id => !g.any (fun c => c.parents.contains id)))

/-! ### Termination of the graph traversals

Both BFS loops enqueue an id only together with inserting it into a set drawn
from a finite universe (loaded commit ids, respectively parent references), so
the fuels chosen above suffice for every input, including graphs with dangling
or cyclic parent references. -/

theorem length_filter_split {α : Type} (l : List α) (p q : α → Bool) :
    (l.filter p).length =
      (l.filter (fun a => p a && q a)).length +
      (l.filter (fun a => p a && !q a)).length := by
  induction l with
  | nil => rfl
  | cons a l ih =>
    by_cases hp : p a = true <;> by_cases hq : q a = true <;>
      simp [List.filter_cons, hp, hq, ih] <;> omega

theorem length_filter_mono {α : Type} (l : List α) (p q : α → Bool)
    (h : ∀ a, p a = true → q a = true) :
    (l.filter p).length ≤ (l.filter q).length := by
  induction l with
  | nil => simp
  | cons a l ih =>
    by_cases hp : p a = true
    · simp only [List.filter_cons, hp, h a hp, if_pos]
      simpa using ih
    · have hp' : p a = false := by simpa using hp
      by_cases hq : q a = true <;>
        simp only [List.filter_cons, hp', hq, Bool.false_eq_true, if_false,
          if_true, List.length_cons] <;> omega

/-- Key counting step shared by both traversals: extending the visited set `v`
by `new` fresh keys, each of which is the key of some element of `l`, removes
at least `new.length` elements from the unvisited part of `l`. -/
theorem length_filter_newkeys {α κ : Type} [DecidableEq κ] (key : α → κ)
    (l : List α) (v new : List κ) (hnd : new.Nodup)
    (hdisj : ∀ x ∈ new, x ∉ v) (hsrc : ∀ x ∈ new, ∃ c ∈ l, key c = x) :
    (l.filter (fun a => !(v ++ new).contains (key a))).length + new.length ≤
      (l.filter (fun a => !v.contains (key a))).length := by
  have hsplit : (l.filter (fun a => !v.contains (key a))).length =
      (l.filter (fun a => !v.contains (key a) && new.contains (key a))).length +
      (l.filter (fun a => !v.contains (key a) && !new.contains (key a))).length :=
    length_filter_split l _ _
  have hcongr : l.filter (fun a => !(v ++ new).contains (key a)) =
      l.filter (fun a => !v.contains (key a) && !new.contains (key a)) := by
    apply List.filter_congr
    intro a _
    simp
  have hle : new.length ≤
      (l.filter (fun a => !v.contains (key a) && new.contains (key a))).length := by
    have hsubl : new ⊆
        (l.filter (fun a => !v.contains (key a) && new.contains (key a))).map key := by
      intro x hx
      obtain ⟨c, hc, hkey⟩ := hsrc x hx
      have hmem : c ∈ l.filter (fun a => !v.contains (key a) && new.contains (key a)) := by
        rw [List.mem_filter]
        refine ⟨hc, ?_⟩
        simp [hkey, hdisj x hx, hx]
      exact List.mem_map.mpr ⟨c, hmem, hkey⟩
    have hsp := (hnd.subperm hsubl).length_le
    simpa using hsp
  rw [hcongr]
  omega

/-- Shape of the child scan of one BFS step: reachable set and queue are
extended by the same block of fresh ids, each the id of a scanned commit. -/
theorem scan_foldl_shape (current : TweetId) (l : List Commit) :
    ∀ (r q : List TweetId), ∃ new,
      l.foldl (scanStep current) (r, q) = (r ++ new, q ++ new) ∧
      new.Nodup ∧ (∀ x ∈ new, x ∉ r) ∧ (∀ x ∈ new, ∃ c ∈ l, c.id = x) := by
  induction l with
  | nil =>
    intro r q
    exact ⟨[], by simp, by simp, by simp, by simp⟩
  | cons c l ih =>
    intro r q
    rw [List.foldl_cons]
    by_cases hc : (c.parents.contains current && !r.contains c.id) = true
    · have hstep : scanStep current (r, q) c = (r ++ [c.id], q ++ [c.id]) := by
        unfold scanStep
        rw [if_pos hc]
      rw [hstep]
      obtain ⟨new, heq, hnd, hdisj, hsrc⟩ := ih (r ++ [c.id]) (q ++ [c.id])
      have hcid : c.id ∉ r := by
        have h2 := hc
        simp only [Bool.and_eq_true] at h2
        simpa using h2.2
      refine ⟨c.id :: new, ?_, ?_, ?_, ?_⟩
      · rw [heq]
        simp
      · refine List.nodup_cons.mpr ⟨?_, hnd⟩
        intro hmem
        exact (hdisj c.id hmem) (by simp)
      · intro x hx
        rcases List.mem_cons.mp hx with h | h
        · subst h; exact hcid
        · intro hxr
          exact (hdisj x h) (List.mem_append_left _ hxr)
      · intro x hx
        rcases List.mem_cons.mp hx with h | h
        · exact ⟨c, List.mem_cons_self c l, h.symm⟩
        · obtain ⟨c', hc', hkey⟩ := hsrc x h
          exact ⟨c', List.mem_cons_of_mem c hc', hkey⟩
    · have hstep : scanStep current (r, q) c = (r, q) := by
        unfold scanStep
        rw [if_neg hc]
      rw [hstep]
      obtain ⟨new, heq, hnd, hdisj, hsrc⟩ := ih r q
      refine ⟨new, heq, hnd, hdisj, ?_⟩
      intro x hx
      obtain ⟨c', hc', hkey⟩ := hsrc x hx
      exact ⟨c', List.mem_cons_of_mem c hc', hkey⟩

/-- The forward BFS terminates within `queue.length` plus the number of
not-yet-reachable loaded commits iterations. -/
theorem reachLoop_isSome (g : CommitGraph) :
    ∀ (fuel : Nat) (q reach : List TweetId),
      q.length + (g.filter (fun c => !reach.contains c.id)).length ≤ fuel →
      (reachLoop g fuel q reach).isSome := by
  intro fuel
  induction fuel with
  | zero =>
    intro q reach h
    match q with
    | [] => simp [reachLoop]
    | x :: xs => simp at h
  | succ f ih =>
    intro q reach h
    match q with
    | [] => simp [reachLoop]
    | current :: rest =>
      rw [reachLoop]
      by_cases hg : g.any (fun c => c.id == current) = true
      · rw [if_pos hg]
        obtain ⟨new, heq, hnd, hdisj, hsrc⟩ := scan_foldl_shape current g reach rest
        simp only [heq]
        apply ih
        have hcore : (g.filter (fun c => !(reach ++ new).contains c.id)).length +
            new.length ≤ (g.filter (fun c => !reach.contains c.id)).length :=
          length_filter_newkeys Commit.id g reach new hnd hdisj hsrc
        have hlen : (rest ++ new).length = rest.length + new.length :=
          List.length_append rest new
        simp only [List.length_cons] at h
        omega
      · rw [if_neg hg]
        apply ih
        simp only [List.length_cons] at h
        omega

/-- Shape of the parent scan of one `get_ancestors` step. -/
theorem anc_foldl_shape (l : List TweetId) :
    ∀ (v q : List TweetId), ∃ new,
      l.foldl ancStep (v, q) = (v ++ new, q ++ new) ∧
      new.Nodup ∧ (∀ x ∈ new, x ∉ v) ∧ (∀ x ∈ new, x ∈ l) := by
  induction l with
  | nil =>
    intro v q
    exact ⟨[], by simp, by simp, by simp, by simp⟩
  | cons p l ih =>
    intro v q
    rw [List.foldl_cons]
    by_cases hp : v.contains p = true
    · have hstep : ancStep (v, q) p = (v, q) := by
        unfold ancStep
        rw [if_pos hp]
      rw [hstep]
      obtain ⟨new, heq, hnd, hdisj, hsrc⟩ := ih v q
      exact ⟨new, heq, hnd, hdisj, fun x hx => List.mem_cons_of_mem p (hsrc x hx)⟩
    · have hstep : ancStep (v, q) p = (v ++ [p], q ++ [p]) := by
        unfold ancStep
        rw [if_neg hp]
      rw [hstep]
      obtain ⟨new, heq, hnd, hdisj, hsrc⟩ := ih (v ++ [p]) (q ++ [p])
      have hpv : p ∉ v := by simpa using hp
      refine ⟨p :: new, ?_, ?_, ?_, ?_⟩
      · rw [heq]; simp
      · refine List.nodup_cons.mpr ⟨?_, hnd⟩
        intro hmem
        exact (hdisj p hmem) (by simp)
      · intro x hx
        rcases List.mem_cons.mp hx with h | h
        · subst h; exact hpv
        · intro hxv
          exact (hdisj x h) (List.mem_append_left _ hxv)
      · intro x hx
        rcases List.mem_cons.mp hx with h | h
        · simp [h]
        · exact List.mem_cons_of_mem p (hsrc x h)

/-- Number of parent references of loaded commits not yet visited. -/
def ancCount (g : CommitGraph) (visited : List TweetId) : Nat :=
  (g.map (fun c => (c.parents.filter (fun p => !visited.contains p)).length)).sum

theorem ancCount_le_totalParents (g : CommitGraph) (visited : List TweetId) :
    ancCount g visited ≤ totalParents g := by
  unfold ancCount totalParents
  exact List.sum_le_sum (fun c _ => List.length_filter_le _ _)

theorem ancCount_mono (g : CommitGraph) (v new : List TweetId) :
    ancCount g (v ++ new) ≤ ancCount g v := by
  unfold ancCount
  apply List.sum_le_sum
  intro c _
  apply length_filter_mono
  intro x hx
  have hnot : x ∉ v ++ new := by simpa using hx
  simpa using fun hmem => hnot (List.mem_append_left _ hmem)

/-- Processing one loaded commit whose parent scan produced `new` fresh ids
decreases the global unvisited-parent count by at least `new.length`. -/
theorem ancCount_step (g : CommitGraph) (commit : Commit) (hmem : commit ∈ g)
    (v new : List TweetId) (hnd : new.Nodup) (hdisj : ∀ x ∈ new, x ∉ v)
    (hsrc : ∀ x ∈ new, x ∈ commit.parents) :
    ancCount g (v ++ new) + new.length ≤ ancCount g v := by
  obtain ⟨s, t, hst⟩ := List.append_of_mem hmem
  subst hst
  unfold ancCount
  simp only [List.map_append, List.map_cons, List.sum_append, List.sum_cons]
  have hterm : (commit.parents.filter (fun p => !(v ++ new).contains p)).length +
      new.length ≤ (commit.parents.filter (fun p => !v.contains p)).length :=
    length_filter_newkeys (fun p : TweetId => p) commit.parents v new
      hnd hdisj (fun x hx => ⟨x, hsrc x hx, rfl⟩)
  have hs : (s.map (fun c => (c.parents.filter (fun p => !(v ++ new).contains p)).length)).sum ≤
      (s.map (fun c => (c.parents.filter (fun p => !v.contains p)).length)).sum :=
    ancCount_mono s v new
  have ht : (t.map (fun c => (c.parents.filter (fun p => !(v ++ new).contains p)).length)).sum ≤
      (t.map (fun c => (c.parents.filter (fun p => !v.contains p)).length)).sum :=
    ancCount_mono t v new
  omega

/-- The backward BFS terminates within `queue.length` plus the number of
unvisited parent references iterations. -/
theorem ancLoop_isSome (g : CommitGraph) :
    ∀ (fuel : Nat) (q visited : List TweetId) (anc : List Commit),
      q.length + ancCount g visited ≤ fuel →
      (ancLoop g fuel q visited anc).isSome := by
  intro fuel
  induction fuel with
  | zero =>
    intro q visited anc h
    match q with
    | [] => simp [ancLoop]
    | x :: xs => simp at h
  | succ f ih =>
    intro q visited anc h
    match q with
    | [] => simp [ancLoop]
    | current :: rest =>
      rw [ancLoop]
      match hfind : CommitGraph.get_commit g current with
      | some commit =>
        obtain ⟨new, heq, hnd, hdisj, hsrc⟩ :=
          anc_foldl_shape commit.parents visited rest
        simp only [heq]
        apply ih
        have hmem : commit ∈ g := by
          have := List.mem_of_find?_eq_some hfind
          exact this
        have hstep := ancCount_step g commit hmem visited new hnd hdisj hsrc
        have hlen : (rest ++ new).length = rest.length + new.length :=
          List.length_append rest new
        simp only [List.length_cons] at h
        omega
      | none =>
        apply ih
        simp only [List.length_cons] at h
        omega

/-- The fuel used in `reachFrom` — hence in `find_head` and `detect_forks` —
never runs out. -/
theorem reachFrom_fuel_ok (g : CommitGraph) (start : TweetId) :
    reachLoop g (1 + g.length) [start] [start] = some (reachFrom g start) := by
  have hb : ([start] : List TweetId).length +
      (g.filter (fun c => !([start] : List TweetId).contains c.id)).length ≤
      1 + g.length := by
    have := List.length_filter_le
      (fun c : Commit => !([start] : List TweetId).contains c.id) g
    simp only [List.length_singleton]
    omega
  have hs := reachLoop_isSome g (1 + g.length) [start] [start] hb
  rcases hres : reachLoop g (1 + g.length) [start] [start] with _ | v
  · rw [hres] at hs; simp at hs
  · unfold reachFrom
    rw [hres]
    rfl

/-- The fuel used in `get_ancestors` never runs out. -/
theorem ancLoop_fuel_ok (g : CommitGraph) (id : TweetId) :
    ancLoop g (1 + totalParents g) [id] [id] [] =
      some (CommitGraph.get_ancestors g id) := by
  have hb : ([id] : List TweetId).length + ancCount g [id] ≤ 1 + totalParents g := by
    have := ancCount_le_totalParents g [id]
    simp only [List.length_singleton]
    omega
  have hs := ancLoop_isSome g (1 + totalParents g) [id] [id] [] hb
  rcases hres : ancLoop g (1 + totalParents g) [id] [id] [] with _ | v
  · rw [hres] at hs; simp at hs
  · unfold CommitGraph.get_ancestors
    rw [hres]
    rfl

/-! ### Persistent index (src/store/sqlite.rs)

The SQLite tables are modelled as association lists in row order: `commits`
keyed by `tweet_id` and `files` keyed by `path`, both updated by
insert-or-replace (`INSERT ... ON CONFLICT ... DO UPDATE`). -/

/-- A row of the `files` table: path, root tweet id, creation instant. -/
structure FileRow where
  path : String
  root_tweet_id : TweetId
  created_at : Nat
deriving DecidableEq

/-- The durable state behind `SqliteStore`. -/
structure StoreState where
  commits : List Commit
  files : List FileRow
deriving DecidableEq

/-- `SqliteStore::store_commit`: insert-or-replace keyed by `tweet_id`. -/
def StoreState.store_commit (st : StoreState) (c : Commit) : StoreState :=
  { st with commits :=
      if st.commits.any (fun x => x.id == c.id) then
        st.commits.map (fun x => if x.id == c.id then c else x)
      else st.commits ++ [c] }

/-- `SqliteStore::get_commit`. -/
def StoreState.get_commit (st : StoreState) (id : TweetId) : Option Commit :=
  st.commits.find? (fun c => c.id == id)

/-- `SqliteStore::get_children`: commits whose serialized parent list contains
`parent_id`; the SQL `LIKE '%"id"%'` pattern on the JSON column is modelled as
list membership. -/
def StoreState.get_children (st : StoreState) (parent_id : TweetId) : List Commit :=
  st.commits.filter (fun c => c.parents.contains parent_id)

/-- `SqliteStore::set_head`: sets the head flag of the row with this id; no
other row's flag is cleared. -/
def StoreState.set_head (st : StoreState) (id : TweetId) : StoreState :=
  { st with commits :=
      st.commits.map (fun c => if c.id == id then { c with is_head := true } else c) }

/-- `SqliteStore::register_file`: insert-or-replace keyed by `path`; on
conflict only `root_tweet_id` is updated.  `now` models `Utc::now()`. -/
def StoreState.register_file (st : StoreState) (path : String)
    (root_tweet_id : TweetId) (now : Nat) : StoreState :=
  { st with files :=
      if st.files.any (fun f => f.path == path) then
        st.files.map (fun f =>
          if f.path == path then { f with root_tweet_id := root_tweet_id } else f)
      else
        st.files ++ [{ path := path, root_tweet_id := root_tweet_id, created_at := now }] }

/-- `SqliteStore::get_file_root`. -/
def StoreState.get_file_root (st : StoreState) (path : String) : Option TweetId :=
  (st.files.find? (fun f => f.path == path)).map (fun f => f.root_tweet_id)

/-- `SqliteStore::list_files`: all registered paths, `ORDER BY path`. -/
def StoreState.list_files (st : StoreState) : List String :=
  (st.files.map (fun f => f.path)).mergeSort (fun a b => decide (a ≤ b))

/-- `SqliteStore::file_exists`: `COUNT(*) > 0` on the path. -/
def StoreState.file_exists (st : StoreState) (path : String) : Bool :=
  st.files.any (fun f => f.path == path)

/-! ### Content cache (src/store/cache.rs) -/

/-- The `HashMap<TweetId, Vec<u8>>` behind `ContentCache`, modelled as an
association list with insert-or-replace.  The surrounding `RwLock` never
poisons in this sequential model, so the `Ok` paths of `get`/`put` apply. -/
abbrev ContentCache := List (TweetId × List Nat)

/-- `ContentCache::get`. -/
def ContentCache.get (cache : ContentCache) (id : TweetId) : Option (List Nat) :=
  (cache.find? (fun kv => kv.1 == id)).map (fun kv => kv.2)

/-- `ContentCache::put`. -/
def ContentCache.put (cache : ContentCache) (id : TweetId) (content : List Nat) :
    ContentCache :=
  if cache.any (fun kv => kv.1 == id) then
    cache.map (fun kv => if kv.1 == id then (id, content) else kv)
  else cache ++ [(id, content)]

/-! ### Mock remote adapter (src/remote/mock.rs) -/

/-- An in-memory tweet of the mock adapter. -/
structure MockTweet where
  id : TweetId
  content : List Nat
  parent_id : Option TweetId
  author : String
deriving DecidableEq

/-- State of `MockAdapter`: the tweet map (association list with
insert-or-replace) and the incrementing id counter, which starts at 1. -/
structure MockAdapterState where
  tweets : List (TweetId × MockTweet)
  next_id : Nat
deriving DecidableEq

/-- `MockAdapter::generate_id` builds `format!("mock_tweet_{}", next_id)`. -/
def genId (n : Nat) : TweetId := "mock_tweet_" ++ toString n

theorem genId_inj (m n : Nat) (h : genId m = genId n) : m = n := by
  apply toString_nat_inj
  have hdata := congrArg String.data h
  simp only [genId, String.data_append] at hdata
  exact String.ext (List.append_cancel_left hdata)

/-- `HashMap::insert` on the tweet map. -/
def tweetsInsert (m : List (TweetId × MockTweet)) (id : TweetId) (t : MockTweet) :
    List (TweetId × MockTweet) :=
  if m.any (fun kv => kv.1 == id) then
    m.map (fun kv => if kv.1 == id then (id, t) else kv)
  else m ++ [(id, t)]

/-- `MockAdapter::store`: posts a new root tweet under a fresh id. -/
def MockAdapterState.store (s : MockAdapterState) (content : List Nat) :
    TweetId × MockAdapterState :=
  let id := genId s.next_id
  let t : MockTweet :=
    { id := id, content := content, parent_id := none, author := "mock_user" }
  (id, { tweets := tweetsInsert s.tweets id t, next_id := s.next_id + 1 })

/-- `MockAdapter::store_reply`: posts a reply to `parent_id` under a fresh
id. -/
def MockAdapterState.store_reply (s : MockAdapterState) (parent_id : TweetId)
    (content : List Nat) : TweetId × MockAdapterState :=
  let id := genId s.next_id
  let t : MockTweet :=
    { id := id, content := content, parent_id := some parent_id, author := "mock_user" }
  (id, { tweets := tweetsInsert s.tweets id t, next_id := s.next_id + 1 })

/-- `MockAdapter::fetch`. -/
def MockAdapterState.fetch (s : MockAdapterState) (id : TweetId) :
    Except XFilesError (List Nat) :=
  match s.tweets.find? (fun kv => kv.1 == id) with
  | some kv => .ok kv.2.content
  | none => .error (.TwitterApi ("Tweet not found: " ++ id))

/-- `MockAdapter::get_replies`/`fetch_replies`: ids of stored tweets whose
parent is `id`, in map iteration order. -/
def MockAdapterState.fetch_replies (s : MockAdapterState) (id : TweetId) :
    List TweetId :=
  (s.tweets.filter (fun kv => kv.2.parent_id == some id)).map (fun kv => kv.2.id)

/-! ### File orchestration (src/fs/file.rs, src/lib.rs)

`XFS` and every `XFile` handle share the store, the adapter and the content
cache through `Arc`s; that shared state is collected in `World` and threaded
explicitly.  `World.clock` models `Utc::now()`: an API call that stamps a
time uses the current clock value and advances it once. -/

structure World where
  store : StoreState
  adapter : MockAdapterState
  cache : ContentCache
  clock : Nat
deriving DecidableEq

/-- An open `XFile` handle: its per-handle fields `path`, `head` and
`author`; the `Arc`-shared components live in `World`. -/
structure XFile where
  path : String
  head : TweetId
  author : String
deriving DecidableEq

instance : Inhabited XFile := ⟨{ path := "", head := "", author := "" }⟩

/-- `XFile::read`: a cache hit on `head` returns immediately; otherwise fetch
from the remote adapter and populate the cache. -/
def XFile.read (f : XFile) (w : World) : Except XFilesError (List Nat) × World :=
  match ContentCache.get w.cache f.head with
  | some content => (.ok content, w)
  | none =>
    match MockAdapterState.fetch w.adapter f.head with
    | .ok content =>
      (.ok content, { w with cache := ContentCache.put w.cache f.head content })
    | .error e => (.error e, w)

/-- Common tail of both branches of `XFile::write` (the source duplicates
this block verbatim in the single-chunk and multi-chunk arms): record the
commit whose id is the first posted segment with the current head as sole
parent and the digest and byte length of the full data, persist it, mark it
head, advance the handle's head and cache the full data under the new
head. -/
def finishWrite (f : XFile) (w : World) (adapter' : MockAdapterState)
    (first_id : TweetId) (hash : String) (data : List Nat) : XFile × World :=
  let commit :=
    Commit.new first_id [f.head] f.author hash "text/plain" data.length w.clock
  let st := StoreState.set_head (StoreState.store_commit w.store commit) first_id
  ({ f with head := first_id },
   { store := st, adapter := adapter',
     cache := ContentCache.put w.cache first_id data, clock := w.clock + 1 })

/-- `XFile::write`: hash the full data, chunk it, post the first segment as a
reply to the current head and any further segments as a chain of replies off
the previous segment, then record and persist the commit and update head and
cache.  `hashFn` abstracts the blake3 `compute_hash`.  The mock adapter and
the modelled store cannot fail, so the `Ok` path of the source is total. -/
def XFile.write (hashFn : List Nat → String) (f : XFile) (data : List Nat)
    (w : World) : XFile × World :=
  let hash := hashFn data
  let chunks := chunk_content data
  if chunks.length = 1 then
    let p := MockAdapterState.store_reply w.adapter f.head chunks.headI
    finishWrite f w p.2 p.1 hash data
  else
    let p := MockAdapterState.store_reply w.adapter f.head chunks.headI
    let rest := chunks.tail.foldl
      (fun acc ch => MockAdapterState.store_reply acc.2 acc.1 ch) p
    finishWrite f w rest.2 p.1 hash data

/-- The tombstone payload `b"[DELETED]"`. -/
def tombstone : List Nat := [91, 68, 69, 76, 69, 84, 69, 68, 93]

/-- `XFile::delete`: post a tombstone reply to `head`, record a commit with
the tombstone mime type, advance `head`.  The cache is not touched. -/
def XFile.delete (hashFn : List Nat → String) (f : XFile) (w : World) :
    XFile × World :=
  let p := MockAdapterState.store_reply w.adapter f.head tombstone
  let commit := Commit.new p.1 [f.head] f.author (hashFn tombstone)
    "application/x-xfiles-tombstone" tombstone.length w.clock
  let st := StoreState.set_head (StoreState.store_commit w.store commit) p.1
  ({ f with head := p.1 },
   { store := st, adapter := p.2, cache := w.cache, clock := w.clock + 1 })

/-- File open mode (`OpenMode`). -/
inductive OpenMode where
  | Create
  | ReadOnly
  | ReadWrite
deriving DecidableEq

/-- The reply-tree collection loop of `XFS::find_head`: pops the front of
`to_process`, loads the commit from the store, adds it to the graph and
appends its not-already-queued replies.  The source loop has no visited set,
so on adversarial reply graphs it need not terminate; `fuel` bounds the
modelled iterations and `none` denotes fuel exhaustion. -/
def collectLoop (st : StoreState) (a : MockAdapterState) :
    Nat → List TweetId → CommitGraph → Option CommitGraph
  | _, [], g => some g
  | 0, _ :: _, _ => none
  | fuel + 1, id :: rest, g =>
    match StoreState.get_commit st id with
    | some commit =>
      let g' := CommitGraph.add_commit g commit
      let q' := (MockAdapterState.fetch_replies a id).foldl
        (fun q r => if q.contains r then q else q ++ [r]) rest
      collectLoop st a fuel q' g'
    | none => collectLoop st a fuel rest g

/-- `XFS::find_head`: resolve the current head of the file rooted at
`root_id` by loading the reply tree reachable from it and running the
graph's head resolution. -/
def xfsFindHead (st : StoreState) (a : MockAdapterState) (fuel : Nat)
    (root_id : TweetId) : Option (Except XFilesError TweetId) :=
  let replies := MockAdapterState.fetch_replies a root_id
  if replies.isEmpty then some (.ok root_id)
  else
    let g0 : CommitGraph :=
      match StoreState.get_commit st root_id with
      | some rc => CommitGraph.add_commit [] rc
      | none => []
    match collectLoop st a fuel replies g0 with
    | some g => some ((CommitGraph.find_head g root_id).map (fun c => c.id))
    | none => none

/-- `XFS::open`.  `user` is the `XFS` user; `fuel` bounds the head-resolution
loop and a `none` result models that loop not terminating.  The failure
branches return the input world unchanged, mirroring the early returns of
the source. -/
def XFS.open (hashFn : List Nat → String) (user : String) (path : String)
    (mode : OpenMode) (fuel : Nat) (w : World) :
    Option (Except XFilesError XFile) × World :=
  match StoreState.get_file_root w.store path, mode with
  | some _, .Create =>
    (some (.error (.Other ("File already exists: " ++ path))), w)
  | none, .Create =>
    let p := MockAdapterState.store w.adapter []
    let commit := Commit.new p.1 [] user (hashFn []) "text/plain" 0 w.clock
    let st1 := StoreState.store_commit w.store commit
    let st2 := StoreState.register_file st1 path p.1 w.clock
    let st3 := StoreState.set_head st2 p.1
    (some (.ok { path := path, head := p.1, author := user }),
     { store := st3, adapter := p.2, cache := w.cache, clock := w.clock + 1 })
  | some root_id, .ReadOnly | some root_id, .ReadWrite =>
    match xfsFindHead w.store w.adapter fuel root_id with
    | some (.ok head) =>
      (some (.ok { path := path, head := head, author := user }), w)
    | some (.error e) => (some (.error e), w)
    | none => (none, w)
  | none, .ReadOnly | none, .ReadWrite =>
    (some (.error (.FileNotFound path)), w)

/-- Rust `str::starts_with(&str)`: prefix on the character sequence. -/
def strStartsWith (s pre : String) : Bool := pre.data.isPrefixOf s.data

/-- Rust `str::ends_with('/')`: the last character is `'/'`. -/
def strEndsWithSlash (s : String) : Bool := s.data.getLast? == some '/'

/-- `XFS::list`: all registered paths for `""` or `"/"`, otherwise the
registered paths under the directory prefix, which is `path` with a `"/"`
appended unless `path` already ends with `"/"`. -/
def XFS.list (st : StoreState) (path : String) : List String :=
  let all_paths := StoreState.list_files st
  if path = "" ∨ path = "/" then all_paths
  else
    let pre := if strEndsWithSlash path then path else path ++ "/"
    all_paths.filter (fun p => strStartsWith p pre)

/-- `XFS::exists`. -/
def XFS.exists (st : StoreState) (path : String) : Bool :=
  StoreState.file_exists st path

/-! ### Helper lemmas for the retry claims -/

theorem retryGo_success (f : Nat → Except E T) :
    ∀ (remaining attempt k : Nat) (v : T), attempt ≤ k → k ≤ attempt + remaining →
      (∀ i, attempt ≤ i → i < k → ∃ e, f i = .error e) → f k = .ok v →
      retryGo f remaining attempt = (.ok v, k + 1) := by
  intro remaining
  induction remaining with
  | zero =>
    intro attempt k v h1 h2 _ hk
    have hka : k = attempt := by omega
    subst hka
    rw [retryGo, hk]
  | succ r ih =>
    intro attempt k v h1 h2 hfail hk
    by_cases hka : k = attempt
    · subst hka
      rw [retryGo, hk]
    · obtain ⟨e, he⟩ := hfail attempt le_rfl (by omega)
      rw [retryGo, he]
      exact ih (attempt + 1) k v (by omega) (by omega)
        (fun i hi1 hi2 => hfail i (by omega) hi2) hk

theorem retryGo_failure (f : Nat → Except E T) :
    ∀ (remaining attempt : Nat) (e : E),
      (∀ i, attempt ≤ i → i ≤ attempt + remaining → ∃ e', f i = .error e') →
      f (attempt + remaining) = .error e →
      retryGo f remaining attempt = (.error e, attempt + remaining + 1) := by
  intro remaining
  induction remaining with
  | zero =>
    intro attempt e _ hlast
    rw [Nat.add_zero] at hlast ⊢
    rw [retryGo, hlast]
  | succ r ih =>
    intro attempt e hfail hlast
    obtain ⟨e0, he0⟩ := hfail attempt le_rfl (by omega)
    rw [retryGo, he0]
    have hrec := ih (attempt + 1) e
      (fun i hi1 hi2 => hfail i (by omega) (by omega))
      (by rw [show attempt + 1 + r = attempt + (r + 1) from by omega]; exact hlast)
    rw [show attempt + (r + 1) + 1 = attempt + 1 + r + 1 from by omega]
    exact hrec

/-! ### Helper lemmas for the write path -/

theorem chunk_content_length_pos (c : List Nat) : 1 ≤ (chunk_content c).length := by
  unfold chunk_content
  split
  · simp
  · next h =>
    match c with
    | [] => simp [TWEET_MAX_SIZE] at h
    | b :: bs =>
      rw [List.length_cons, chunkGo]
      simp

/-- Lookup after an insert-or-replace hit on the inserted key. -/
theorem find?_if_any_map {α : Type} (l : List α) (p : α → Bool) (x : α)
    (hx : p x = true) :
    List.find? p (if l.any p then l.map (fun a => if p a then x else a)
      else l ++ [x]) = some x := by
  split
  · next hany =>
    induction l with
    | nil => simp at hany
    | cons a t ih =>
      rw [List.map_cons]
      by_cases ha : p a = true
      · rw [if_pos ha, List.find?_cons_of_pos _ hx]
      · rw [if_neg ha, List.find?_cons_of_neg _ ha]
        apply ih
        rcases List.any_eq_true.mp hany with ⟨y, hy, hpy⟩
        rcases List.mem_cons.mp hy with rfl | hyt
        · exact absurd hpy ha
        · exact List.any_eq_true.mpr ⟨y, hyt, hpy⟩
  · next hany =>
    induction l with
    | nil => simp [List.find?_cons_of_pos _ hx]
    | cons a t ih =>
      have hpa : ¬ p a = true :=
        fun hp => hany (List.any_eq_true.mpr ⟨a, by simp, hp⟩)
      rw [List.cons_append, List.find?_cons_of_neg _ hpa]
      apply ih
      intro h'
      apply hany
      rcases List.any_eq_true.mp h' with ⟨y, hy, hpy⟩
      exact List.any_eq_true.mpr ⟨y, List.mem_cons_of_mem a hy, hpy⟩

/-- Lookup after an insert-or-replace under a different key. -/
theorem find?_if_any_map_ne {α : Type} (l : List α) (p q : α → Bool) (x : α)
    (hqx : q x = false) (hpq : ∀ a, p a = true → q a = false) :
    List.find? q (if l.any p then l.map (fun a => if p a then x else a)
      else l ++ [x]) = List.find? q l := by
  split
  · next hany =>
    clear hany
    induction l with
    | nil => rfl
    | cons a t ih =>
      rw [List.map_cons]
      by_cases hpa : p a = true
      · rw [if_pos hpa]
        have hqa := hpq a hpa
        rw [List.find?_cons_of_neg _ (by simp [hqx]),
          List.find?_cons_of_neg _ (by simp [hqa])]
        exact ih
      · rw [if_neg hpa]
        by_cases hqa : q a = true
        · rw [List.find?_cons_of_pos _ hqa, List.find?_cons_of_pos _ hqa]
        · rw [List.find?_cons_of_neg _ hqa, List.find?_cons_of_neg _ hqa]
          exact ih
  · next hany =>
    induction l with
    | nil =>
      rw [List.nil_append, List.find?_cons_of_neg _ (by simp [hqx])]
    | cons a t ih =>
      have hpa : ¬ p a = true :=
        fun hp => hany (List.any_eq_true.mpr ⟨a, by simp, hp⟩)
      rw [List.cons_append]
      by_cases hqa : q a = true
      · rw [List.find?_cons_of_pos _ hqa, List.find?_cons_of_pos _ hqa]
      · rw [List.find?_cons_of_neg _ hqa, List.find?_cons_of_neg _ hqa]
        apply ih
        intro h'
        apply hany
        rcases List.any_eq_true.mp h' with ⟨y, hy, hpy⟩
        exact List.any_eq_true.mpr ⟨y, List.mem_cons_of_mem a hy, hpy⟩

/-- `ContentCache.get` after `ContentCache.put` on the same key. -/
theorem cacheGet_put_self (cache : ContentCache) (id : TweetId)
    (content : List Nat) :
    ContentCache.get (ContentCache.put cache id content) id = some content := by
  have h : List.find? (fun kv => kv.1 == id)
      (if cache.any (fun kv => kv.1 == id)
       then cache.map (fun kv => if kv.1 == id then (id, content) else kv)
       else cache ++ [(id, content)]) = some (id, content) :=
    find?_if_any_map cache (fun kv => kv.1 == id) (id, content) (by simp)
  unfold ContentCache.get ContentCache.put
  rw [h]
  rfl

/-- Storing a commit whose id is not yet present appends a row. -/
theorem store_commit_fresh (st : StoreState) (c : Commit)
    (h : ∀ x ∈ st.commits, x.id ≠ c.id) :
    StoreState.store_commit st c = { st with commits := st.commits ++ [c] } := by
  unfold StoreState.store_commit
  rw [if_neg]
  intro hany
  rcases List.any_eq_true.mp hany with ⟨x, hx, hbeq⟩
  exact h x hx (by simpa using hbeq)

/-- `store_commit` then `set_head` on a fresh id: the old rows are unchanged
and the new row is appended with its head flag set. -/
theorem store_then_set_head (st : StoreState) (c : Commit) (id : TweetId)
    (hid : c.id = id) (h : ∀ x ∈ st.commits, x.id ≠ id) :
    StoreState.set_head (StoreState.store_commit st c) id =
      { st with commits := st.commits ++ [{ c with is_head := true }] } := by
  rw [store_commit_fresh st c (fun x hx => hid ▸ h x hx)]
  unfold StoreState.set_head
  have hmap : (st.commits ++ [c]).map
      (fun x => if x.id == id then { x with is_head := true } else x) =
      st.commits ++ [{ c with is_head := true }] := by
    rw [List.map_append]
    congr 1
    · conv_rhs => rw [← List.map_id st.commits]
      apply List.map_congr_left
      intro a ha
      rw [if_neg]
      simp only [id_eq]
      simpa using h a ha
    · simp [hid]
  simp only [hmap]

/-- Registering a path that is not yet present appends a row. -/
theorem register_file_fresh (st : StoreState) (path : String) (root : TweetId)
    (now : Nat) (h : StoreState.get_file_root st path = none) :
    StoreState.register_file st path root now =
      { st with files := st.files ++
          [{ path := path, root_tweet_id := root, created_at := now }] } := by
  have hnone : st.files.find? (fun f => f.path == path) = none := by
    unfold StoreState.get_file_root at h
    cases hf : st.files.find? (fun f => f.path == path) with
    | none => rfl
    | some v => rw [hf] at h; simp at h
  unfold StoreState.register_file
  rw [if_neg]
  intro hany
  rcases List.any_eq_true.mp hany with ⟨fr, hfr, hbeq⟩
  exact absurd hbeq (List.find?_eq_none.mp hnone fr hfr)

/-- The commit row recorded by a write: id of the first posted segment, the
old head as sole parent, digest and byte length of the full data, head flag
set by `set_head`. -/
def writtenCommit (f : XFile) (w : World) (hash : String) (size : Nat) : Commit :=
  { id := genId w.adapter.next_id, parents := [f.head], timestamp := w.clock,
    hash := hash, author := f.author, mime := "text/plain", size := size,
    is_head := true }

/-- Effect of `finishWrite` when the first segment id is fresh for the
store. -/
theorem finishWrite_effect (f : XFile) (w : World) (a' : MockAdapterState)
    (hash : String) (data : List Nat)
    (hfresh : ∀ c ∈ w.store.commits, c.id ≠ genId w.adapter.next_id) :
    finishWrite f w a' (genId w.adapter.next_id) hash data =
      ({ f with head := genId w.adapter.next_id },
       { store := { commits := w.store.commits ++ [writtenCommit f w hash data.length],
                    files := w.store.files },
         adapter := a',
         cache := ContentCache.put w.cache (genId w.adapter.next_id) data,
         clock := w.clock + 1 }) := by
  simp only [finishWrite]
  rw [store_then_set_head w.store
    (Commit.new (genId w.adapter.next_id) [f.head] f.author hash "text/plain"
      data.length w.clock)
    (genId w.adapter.next_id) rfl hfresh]
  simp only [Commit.new, writtenCommit]

/-- Posting a reply chain advances the id counter by the chain length and
leaves any key outside the generated range untouched in the tweet map. -/
theorem chain_post_effect (chs : List (List Nat)) :
    ∀ pv : TweetId × MockAdapterState,
      ((chs.foldl (fun acc ch => MockAdapterState.store_reply acc.2 acc.1 ch) pv).2.next_id =
        pv.2.next_id + chs.length) ∧
      ∀ k : TweetId, (∀ j, j < chs.length → genId (pv.2.next_id + j) ≠ k) →
        ((chs.foldl (fun acc ch => MockAdapterState.store_reply acc.2 acc.1 ch) pv).2.tweets.find?
          (fun kv => kv.1 == k) =
        pv.2.tweets.find? (fun kv => kv.1 == k)) := by
  induction chs with
  | nil =>
    intro pv
    exact ⟨rfl, fun k _ => rfl⟩
  | cons ch chs ih =>
    intro pv
    rw [List.foldl_cons]
    obtain ⟨ihn, iht⟩ := ih (MockAdapterState.store_reply pv.2 pv.1 ch)
    constructor
    · rw [ihn]
      show pv.2.next_id + 1 + chs.length = pv.2.next_id + (ch :: chs).length
      simp only [List.length_cons]
      omega
    · intro k hk
      have hshift : ∀ j, j < chs.length →
          genId ((MockAdapterState.store_reply pv.2 pv.1 ch).2.next_id + j) ≠ k := by
        intro j hj
        have hmem := hk (j + 1) (by simp only [List.length_cons]; omega)
        show genId (pv.2.next_id + 1 + j) ≠ k
        rw [show pv.2.next_id + 1 + j = pv.2.next_id + (j + 1) from by omega]
        exact hmem
      rw [iht k hshift]
      have hne := hk 0 (by simp)
      have h0 : genId pv.2.next_id ≠ k := by simpa using hne
      show (tweetsInsert pv.2.tweets (genId pv.2.next_id) _).find?
        (fun kv => kv.1 == k) = _
      unfold tweetsInsert
      apply find?_if_any_map_ne
      · simpa using h0
      · intro a ha
        have ha1 : a.1 = genId pv.2.next_id := by simpa using ha
        rw [ha1]
        simpa using h0

/-- Effect of `XFile::write` on a world whose store holds no commit under the
id the adapter will generate for the first posted segment. -/
theorem write_effect (hashFn : List Nat → String) (f : XFile) (data : List Nat)
    (w : World)
    (hfresh : ∀ c ∈ w.store.commits, c.id ≠ genId w.adapter.next_id) :
    (XFile.write hashFn f data w).1 = { f with head := genId w.adapter.next_id } ∧
    (XFile.write hashFn f data w).2.store =
      { commits := w.store.commits ++ [writtenCommit f w (hashFn data) data.length],
        files := w.store.files } ∧
    (XFile.write hashFn f data w).2.cache =
      ContentCache.put w.cache (genId w.adapter.next_id) data ∧
    (XFile.write hashFn f data w).2.clock = w.clock + 1 ∧
    (XFile.write hashFn f data w).2.adapter.next_id =
      w.adapter.next_id + (chunk_content data).length ∧
    (XFile.write hashFn f data w).2.adapter.tweets.find?
      (fun kv => kv.1 == genId w.adapter.next_id) =
      some (genId w.adapter.next_id,
        { id := genId w.adapter.next_id, content := (chunk_content data).headI,
          parent_id := some f.head, author := "mock_user" }) := by
  have hselft : ∀ (m : List (TweetId × MockTweet)) (id : TweetId) (t : MockTweet),
      t.id = id → (tweetsInsert m id t).find? (fun kv => kv.1 == id) = some (id, t) := by
    intro m id t _
    unfold tweetsInsert
    exact find?_if_any_map m (fun kv => kv.1 == id) (id, t) (by simp)
  by_cases hch : (chunk_content data).length = 1
  · have hw : XFile.write hashFn f data w =
        finishWrite f w
          (MockAdapterState.store_reply w.adapter f.head ((chunk_content data).headI)).2
          (genId w.adapter.next_id) (hashFn data) data := by
      unfold XFile.write
      rw [if_pos hch]
      rfl
    rw [hw, finishWrite_effect f w _ _ _ hfresh]
    refine ⟨rfl, rfl, rfl, rfl, ?_, ?_⟩
    · show w.adapter.next_id + 1 = w.adapter.next_id + (chunk_content data).length
      omega
    · exact hselft w.adapter.tweets (genId w.adapter.next_id)
        { id := genId w.adapter.next_id, content := (chunk_content data).headI,
          parent_id := some f.head, author := "mock_user" } rfl
  · have hw : XFile.write hashFn f data w =
        finishWrite f w
          ((chunk_content data).tail.foldl
            (fun acc ch => MockAdapterState.store_reply acc.2 acc.1 ch)
            (MockAdapterState.store_reply w.adapter f.head ((chunk_content data).headI))).2
          (genId w.adapter.next_id) (hashFn data) data := by
      unfold XFile.write
      rw [if_neg hch]
      rfl
    obtain ⟨hnext, hkeep⟩ := chain_post_effect (chunk_content data).tail
      (MockAdapterState.store_reply w.adapter f.head ((chunk_content data).headI))
    rw [hw, finishWrite_effect f w _ _ _ hfresh]
    refine ⟨rfl, rfl, rfl, rfl, ?_, ?_⟩
    · show ((chunk_content data).tail.foldl
          (fun acc ch => MockAdapterState.store_reply acc.2 acc.1 ch)
          (MockAdapterState.store_reply w.adapter f.head
            ((chunk_content data).headI))).2.next_id =
        w.adapter.next_id + (chunk_content data).length
      rw [hnext]
      show w.adapter.next_id + 1 + (chunk_content data).tail.length =
        w.adapter.next_id + (chunk_content data).length
      rw [List.length_tail]
      have := chunk_content_length_pos data
      omega
    · have hfresh2 : ∀ j, j < (chunk_content data).tail.length →
          genId ((MockAdapterState.store_reply w.adapter f.head
            ((chunk_content data).headI)).2.next_id + j) ≠ genId w.adapter.next_id := by
        intro j _
        show genId (w.adapter.next_id + 1 + j) ≠ genId w.adapter.next_id
        intro heq
        have := genId_inj _ _ heq
        omega
      show ((chunk_content data).tail.foldl
          (fun acc ch => MockAdapterState.store_reply acc.2 acc.1 ch)
          (MockAdapterState.store_reply w.adapter f.head
            ((chunk_content data).headI))).2.tweets.find?
          (fun kv => kv.1 == genId w.adapter.next_id) = _
      rw [hkeep (genId w.adapter.next_id) hfresh2]
      exact hselft w.adapter.tweets (genId w.adapter.next_id)
        { id := genId w.adapter.next_id, content := (chunk_content data).headI,
          parent_id := some f.head, author := "mock_user" } rfl

/-! ### Claims -/

/-- C3: for every byte sequence `c`, `recombine_chunks (chunk_content c) = c`;
`chunk_content c` yields exactly one segment iff `c.length ≤ TWEET_MAX_SIZE`
(280 bytes); and every segment holds at most `TWEET_MAX_SIZE` bytes — with
the round trip this states the segments are consecutive slices, in order,
covering `c` exactly once with no overlap. -/
theorem C3_chunk_roundtrip (c : List Nat) :
    recombine_chunks (chunk_content c) = c ∧
    ((chunk_content c).length = 1 ↔ c.length ≤ TWEET_MAX_SIZE) ∧
    (∀ s ∈ chunk_content c, s.length ≤ TWEET_MAX_SIZE) := by
  unfold chunk_content recombine_chunks
  by_cases h : c.length ≤ TWEET_MAX_SIZE
  · rw [if_pos h]
    refine ⟨by simp, ⟨fun _ => h, fun _ => by simp⟩, ?_⟩
    intro s hs
    rw [List.mem_singleton.mp hs]
    exact h
  · rw [if_neg h]
    refine ⟨chunkGo_flatten c.length c le_rfl, ⟨?_, fun hle => absurd hle h⟩,
      chunkGo_mem_length c.length c⟩
    intro hlen
    exfalso
    obtain ⟨b, bs, rfl⟩ : ∃ b bs, c = b :: bs := by
      match c with
      | [] => simp [TWEET_MAX_SIZE] at h
      | b :: bs => exact ⟨b, bs, rfl⟩
    rw [List.length_cons, chunkGo] at hlen
    have htail : chunkGo bs.length ((b :: bs).drop TWEET_MAX_SIZE) ≠ [] := by
      apply chunkGo_ne_nil
      · simp [TWEET_MAX_SIZE] at h
        omega
      · intro hdrop
        have := congrArg List.length hdrop
        simp [TWEET_MAX_SIZE] at h this
        omega
    simp only [List.length_cons, Nat.add_eq_one_iff] at hlen
    rcases List.exists_cons_of_ne_nil htail with ⟨x, xs, hx⟩
    rw [hx] at hlen
    simp at hlen

/-- C4 as stated is false at `max_attempts = 0`: the loop body runs before
the attempt check, so a permanently failing operation is invoked once, not
zero times. -/
theorem C4_counterexample :
    (retry_with_backoff 0 (fun _ => (Except.error () : Except Unit Unit))).2 ≠ 0 := by
  decide

/-- C4 (amended: for configurations with `max_attempts ≥ 1`; with
`max_attempts = 0` one invocation still occurs): if the operation succeeds at
an attempt the loop reaches, that success is returned with no further
invocations; if it fails on every attempt, exactly `max_attempts` invocations
occur and the failure of the last one is returned. -/
theorem C4_retry (max_attempts : Nat) (h1 : 1 ≤ max_attempts)
    (f : Nat → Except E T) :
    (∀ k v, k < max_attempts → (∀ i, i < k → ∃ e, f i = .error e) →
      f k = .ok v → retry_with_backoff max_attempts f = (.ok v, k + 1)) ∧
    (∀ e, (∀ i, i < max_attempts → ∃ e', f i = .error e') →
      f (max_attempts - 1) = .error e →
      retry_with_backoff max_attempts f = (.error e, max_attempts)) := by
  constructor
  · intro k v hk hfail hok
    unfold retry_with_backoff
    exact retryGo_success f (max_attempts - 1) 0 k v (by omega) (by omega)
      (fun i _ h2 => hfail i h2) hok
  · intro e hfail hlast
    unfold retry_with_backoff
    have hrec := retryGo_failure f (max_attempts - 1) 0 e
      (fun i _ h2 => hfail i (by omega))
      (by rw [Nat.zero_add]; exact hlast)
    have hcount : 0 + (max_attempts - 1) + 1 = max_attempts := by omega
    rw [hcount] at hrec
    exact hrec

/-- C4 witness: `max_attempts = 3` around an operation failing twice then
succeeding returns the success after exactly 3 invocations; around a
permanently failing operation it returns the last failure after exactly 3
invocations. -/
theorem C4_retry_witness :
    retry_with_backoff 3
      (fun i => if i < 2 then (Except.error 0 : Except Nat Nat) else .ok 42) =
      (.ok 42, 3) ∧
    retry_with_backoff 3 (fun i => (Except.error i : Except Nat Nat)) =
      (.error 2, 3) := by
  constructor
  · exact (C4_retry 3 (by decide)
      (fun i => if i < 2 then (Except.error 0 : Except Nat Nat) else .ok 42)).1
      2 42 (by decide) (fun i hi => ⟨0, by interval_cases i <;> rfl⟩) rfl
  · exact (C4_retry 3 (by decide) (fun i => (Except.error i : Except Nat Nat))).2
      2 (fun i _ => ⟨i, rfl⟩) rfl

/-- C9: for every finite loaded commit set — dangling and cyclic parent
references included — the traversals terminate: the bounded fuel used by
`reachFrom` (the reachable-set loop shared by `find_head` and `detect_forks`)
and by `get_ancestors` never runs out, because an id is enqueued only when
newly inserted into the visited set, which is bounded by the finite universe
of loaded ids respectively parent references. -/
theorem C9_traversals_terminate (g : CommitGraph) (start : TweetId) :
    reachLoop g (1 + g.length) [start] [start] = some (reachFrom g start) ∧
    ancLoop g (1 + totalParents g) [start] [start] [] =
      some (CommitGraph.get_ancestors g start) :=
  ⟨reachFrom_fuel_ok g start, ancLoop_fuel_ok g start⟩

/-- C10: for a prefix other than `""` and `"/"`, `list` returns exactly the
registered paths that begin with the prefix followed by `"/"` — the prefix
itself when it already ends in `"/"` — so matching is by whole directory
component and a path equal to the prefix is not returned; `""` and `"/"`
return all registered paths. -/
theorem C10_list (st : StoreState) (path : String) :
    (path ≠ "" → path ≠ "/" →
      (∀ q, q ∈ XFS.list st path ↔
        ((∃ f ∈ st.files, f.path = q) ∧
          strStartsWith q
            (if strEndsWithSlash path then path else path ++ "/") = true)) ∧
      (strEndsWithSlash path = false → path ∉ XFS.list st path)) ∧
    XFS.list st "" = StoreState.list_files st ∧
    XFS.list st "/" = StoreState.list_files st := by
  refine ⟨?_, ?_, ?_⟩
  · intro h1 h2
    have hcond : ¬ (path = "" ∨ path = "/") := by
      rintro (h | h)
      · exact h1 h
      · exact h2 h
    have hmemlist : ∀ q, q ∈ XFS.list st path ↔
        ((∃ f ∈ st.files, f.path = q) ∧
          strStartsWith q
            (if strEndsWithSlash path then path else path ++ "/") = true) := by
      intro q
      unfold XFS.list
      rw [if_neg hcond, List.mem_filter]
      constructor
      · rintro ⟨hall, hpre⟩
        refine ⟨?_, hpre⟩
        have hmap : q ∈ st.files.map (fun f => f.path) := by
          have hperm := List.mergeSort_perm (st.files.map (fun f => f.path))
            (fun a b => decide (a ≤ b))
          exact hperm.mem_iff.mp hall
        obtain ⟨f, hf, hfq⟩ := List.mem_map.mp hmap
        exact ⟨f, hf, hfq⟩
      · rintro ⟨⟨f, hf, hfq⟩, hpre⟩
        refine ⟨?_, hpre⟩
        have hperm := List.mergeSort_perm (st.files.map (fun f => f.path))
          (fun a b => decide (a ≤ b))
        exact hperm.mem_iff.mpr (List.mem_map.mpr ⟨f, hf, hfq⟩)
    refine ⟨hmemlist, ?_⟩
    intro hslash hmem
    have hpre := ((hmemlist path).mp hmem).2
    rw [hslash] at hpre
    simp only [Bool.false_eq_true, if_false] at hpre
    unfold strStartsWith at hpre
    have hp : (path ++ "/").data <+: path.data :=
      List.isPrefixOf_iff_prefix.mp hpre
    have hlen := hp.length_le
    rw [String.data_append] at hlen
    simp at hlen
  · unfold XFS.list
    rw [if_pos (Or.inl rfl)]
  · unfold XFS.list
    rw [if_pos (Or.inr rfl)]

/-- Store with `logs/a.log`, `logs/b.log` and `top.txt` registered, used by
the `list` witness. -/
def listWitnessStore : StoreState :=
  { commits := [],
    files := [
      { path := "logs/a.log", root_tweet_id := "mock_tweet_1", created_at := 0 },
      { path := "logs/b.log", root_tweet_id := "mock_tweet_2", created_at := 1 },
      { path := "top.txt", root_tweet_id := "mock_tweet_3", created_at := 2 }] }

/-- C10 witness: `list "logs"` contains `logs/a.log`, `list "log"` does not,
and `list "logs"` does not contain the path `logs` itself. -/
theorem C10_list_witness :
    "logs/a.log" ∈ XFS.list listWitnessStore "logs" ∧
    "logs/a.log" ∉ XFS.list listWitnessStore "log" ∧
    "logs" ∉ XFS.list listWitnessStore "logs" := by
  refine ⟨?_, ?_, ?_⟩
  · exact (((C10_list listWitnessStore "logs").1 (by decide) (by decide)).1
      "logs/a.log").mpr
      ⟨⟨{ path := "logs/a.log", root_tweet_id := "mock_tweet_1", created_at := 0 },
        by decide, rfl⟩, by decide⟩
  · intro hmem
    have hh := (((C10_list listWitnessStore "log").1 (by decide) (by decide)).1
      "logs/a.log").mp hmem
    exact absurd hh.2 (by decide)
  · exact ((C10_list listWitnessStore "logs").1 (by decide) (by decide)).2
      (by decide)

/-- C1: for every open handle with current head `f.head` and every payload
`data`, a successful write records exactly one new commit row: the store
becomes the old rows plus one appended commit whose id is the id assigned to
the first posted segment (held in the adapter as a reply to `f.head`
carrying the first chunk), whose parents are exactly `[f.head]`, and whose
hash and size are the digest and byte length of the full logical data; the
handle's head becomes that commit's id and the cache afterwards maps the new
head to the full data.  The freshness hypothesis says the store holds no row
yet under the id the adapter will generate. -/
theorem C1_write_commit (hashFn : List Nat → String) (f : XFile)
    (data : List Nat) (w : World)
    (hfresh : ∀ c ∈ w.store.commits, c.id ≠ genId w.adapter.next_id) :
    (XFile.write hashFn f data w).2.store.commits =
      w.store.commits ++ [writtenCommit f w (hashFn data) data.length] ∧
    (writtenCommit f w (hashFn data) data.length).parents = [f.head] ∧
    (writtenCommit f w (hashFn data) data.length).hash = hashFn data ∧
    (writtenCommit f w (hashFn data) data.length).size = data.length ∧
    (XFile.write hashFn f data w).1.head =
      (writtenCommit f w (hashFn data) data.length).id ∧
    ContentCache.get (XFile.write hashFn f data w).2.cache
      ((XFile.write hashFn f data w).1.head) = some data ∧
    (XFile.write hashFn f data w).2.adapter.tweets.find?
      (fun kv => kv.1 == (writtenCommit f w (hashFn data) data.length).id) =
      some ((writtenCommit f w (hashFn data) data.length).id,
        { id := (writtenCommit f w (hashFn data) data.length).id,
          content := (chunk_content data).headI,
          parent_id := some f.head, author := "mock_user" }) := by
  obtain ⟨h1, h2, h3, h4, h5, h6⟩ := write_effect hashFn f data w hfresh
  refine ⟨?_, rfl, rfl, rfl, ?_, ?_, ?_⟩
  · rw [h2]
  · rw [h1]
    rfl
  · rw [h1, h3]
    exact cacheGet_put_self w.cache (genId w.adapter.next_id) data
  · exact h6

/-- Starting world of the write witness: empty store and cache, id counter
at 1. -/
def c1WitnessWorld : World :=
  { store := { commits := [], files := [] },
    adapter := { tweets := [], next_id := 1 },
    cache := [], clock := 0 }

/-- Handle used by the write witness. -/
def c1WitnessFile : XFile := { path := "f", head := "mock_tweet_0", author := "u" }

/-- C1 witness: a concrete write appends exactly one commit with parents
`[old head]`, advances the head to `mock_tweet_1` and caches the full data
under it. -/
theorem C1_write_commit_witness :
    (XFile.write (fun _ => "h") c1WitnessFile [1, 2, 3] c1WitnessWorld).1.head =
      "mock_tweet_1" ∧
    (XFile.write (fun _ => "h") c1WitnessFile [1, 2, 3] c1WitnessWorld).2.store.commits =
      [{ id := "mock_tweet_1", parents := ["mock_tweet_0"], timestamp := 0,
         hash := "h", author := "u", mime := "text/plain", size := 3,
         is_head := true }] ∧
    ContentCache.get (XFile.write (fun _ => "h") c1WitnessFile [1, 2, 3] c1WitnessWorld).2.cache
      ((XFile.write (fun _ => "h") c1WitnessFile [1, 2, 3] c1WitnessWorld).1.head) =
      some [1, 2, 3] := by
  obtain ⟨h1, _, _, _, h5, h6, _⟩ :=
    C1_write_commit (fun _ => "h") c1WitnessFile [1, 2, 3] c1WitnessWorld (by decide)
  refine ⟨?_, ?_, h6⟩
  · rw [h5]
    decide
  · rw [h1]
    decide

/-- C5: `open(p, Create)` on a registered path fails with the already-exists
error — realized in the source as the unstructured `Other` variant carrying
the message `"File already exists: p"` (the error enum has no dedicated
variant for it) — and `open(p, ReadOnly)` or `open(p, ReadWrite)` on an
unregistered path fails with `FileNotFound p`.  In both failure cases the
returned world is the input world, so no commit is posted and the index
registration state for `p` is unchanged. -/
theorem C5_open_errors (hashFn : List Nat → String) (user path : String)
    (fuel : Nat) (w : World) :
    ((∃ r, StoreState.get_file_root w.store path = some r) →
      XFS.open hashFn user path OpenMode.Create fuel w =
        (some (.error (.Other ("File already exists: " ++ path))), w)) ∧
    (StoreState.get_file_root w.store path = none →
      ∀ mode, mode = OpenMode.ReadOnly ∨ mode = OpenMode.ReadWrite →
        XFS.open hashFn user path mode fuel w =
          (some (.error (.FileNotFound path)), w)) := by
  constructor
  · rintro ⟨r, hr⟩
    unfold XFS.open
    rw [hr]
  · intro hnone mode hmode
    unfold XFS.open
    rw [hnone]
    rcases hmode with rfl | rfl <;> rfl

/-- World of the open-failure witness: `"f"` is registered, nothing else. -/
def c5WitnessWorld : World :=
  { store := { commits := [],
               files := [{ path := "f", root_tweet_id := "mock_tweet_1",
                           created_at := 0 }] },
    adapter := { tweets := [], next_id := 2 }, cache := [], clock := 0 }

/-- C5 witness: creating the registered `"f"` fails with the already-exists
message, opening the unregistered `"missing"` read-only fails with
`FileNotFound`; both leave the world unchanged. -/
theorem C5_open_errors_witness :
    XFS.open (fun _ => "h") "u" "f" OpenMode.Create 0 c5WitnessWorld =
      (some (.error (.Other "File already exists: f")), c5WitnessWorld) ∧
    XFS.open (fun _ => "h") "u" "missing" OpenMode.ReadOnly 0 c5WitnessWorld =
      (some (.error (.FileNotFound "missing")), c5WitnessWorld) := by
  constructor
  · have hs : ("File already exists: " ++ "f" : String) = "File already exists: f" := by
      decide
    have h := (C5_open_errors (fun _ => "h") "u" "f" 0 c5WitnessWorld).1
      ⟨"mock_tweet_1", by decide⟩
    rw [hs] at h
    exact h
  · exact (C5_open_errors (fun _ => "h") "u" "missing" 0 c5WitnessWorld).2
      (by decide) OpenMode.ReadOnly (Or.inl rfl)

/-- A client operation performed through one of the open handles. -/
inductive FileOp where
  | write (data : List Nat)
  | delete
deriving DecidableEq

/-- Apply one operation through handle `i` of `hs` (a no-op when `i` is out
of range): the handle is replaced by its advanced version and the shared
world is threaded. -/
def applyOp (hashFn : List Nat → String) (hs : List XFile) (w : World)
    (i : Nat) (op : FileOp) : List XFile × World :=
  match hs[i]? with
  | none => (hs, w)
  | some f =>
    match op with
    | .write data =>
      let r := XFile.write hashFn f data w
      (hs.set i r.1, r.2)
    | .delete =>
      let r := XFile.delete hashFn f w
      (hs.set i r.1, r.2)

/-- Apply a sequence of write/delete operations through open handles. -/
def applyOps (hashFn : List Nat → String) (ops : List (Nat × FileOp))
    (hw : List XFile × World) : List XFile × World :=
  ops.foldl (fun acc op => applyOp hashFn acc.1 acc.2 op.1 op.2) hw

theorem write_keeps_files (hashFn : List Nat → String) (f : XFile)
    (data : List Nat) (w : World) :
    (XFile.write hashFn f data w).2.store.files = w.store.files := by
  simp only [XFile.write]
  split <;> rfl

theorem delete_keeps_files (hashFn : List Nat → String) (f : XFile) (w : World) :
    (XFile.delete hashFn f w).2.store.files = w.store.files := rfl

theorem applyOp_keeps_files (hashFn : List Nat → String) (hs : List XFile)
    (w : World) (i : Nat) (op : FileOp) :
    (applyOp hashFn hs w i op).2.store.files = w.store.files := by
  unfold applyOp
  cases hidx : hs[i]? with
  | none => rfl
  | some f =>
    cases op with
    | write data => exact write_keeps_files hashFn f data w
    | delete => exact delete_keeps_files hashFn f w

/-- C7: over every sequence of write and delete operations performed through
open handles, the path-to-root rows of the index are left untouched, so the
root registered at creation is still the one returned for the path
afterwards — only the derived head advances. -/
theorem C7_registration_stable (hashFn : List Nat → String)
    (ops : List (Nat × FileOp)) (hs : List XFile) (w : World) :
    (applyOps hashFn ops (hs, w)).2.store.files = w.store.files ∧
    ∀ path r, StoreState.get_file_root w.store path = some r →
      StoreState.get_file_root (applyOps hashFn ops (hs, w)).2.store path = some r := by
  have hfiles : ∀ (ops : List (Nat × FileOp)) (hw : List XFile × World),
      (applyOps hashFn ops hw).2.store.files = hw.2.store.files := by
    intro ops
    induction ops with
    | nil => intro hw; rfl
    | cons op ops ih =>
      intro hw
      unfold applyOps
      rw [List.foldl_cons]
      have hrec := ih (applyOp hashFn hw.1 hw.2 op.1 op.2)
      unfold applyOps at hrec
      rw [hrec]
      exact applyOp_keeps_files hashFn hw.1 hw.2 op.1 op.2
  refine ⟨hfiles ops (hs, w), ?_⟩
  intro path r hr
  unfold StoreState.get_file_root at hr ⊢
  rw [hfiles ops (hs, w)]
  exact hr

/-- C7 witness: after a concrete write and delete through a handle on `"f"`,
the registered root of `"f"` is still the one registered at creation. -/
theorem C7_registration_stable_witness :
    StoreState.get_file_root
      (applyOps (fun _ => "h") [(0, FileOp.write [1]), (0, FileOp.delete)]
        ([{ path := "f", head := "mock_tweet_1", author := "u" }],
          c5WitnessWorld)).2.store "f" = some "mock_tweet_1" :=
  (C7_registration_stable (fun _ => "h")
    [(0, FileOp.write [1]), (0, FileOp.delete)]
    [{ path := "f", head := "mock_tweet_1", author := "u" }]
    c5WitnessWorld).2 "f" "mock_tweet_1" (by decide)

/-! ### The write-chain scenario of C6 -/

/-- The empty starting world: no tweets, no rows, id counter at 1. -/
def emptyWorld : World :=
  { store := { commits := [], files := [] },
    adapter := { tweets := [], next_id := 1 },
    cache := [], clock := 0 }

/-- Root commit recorded when creating `"f"` on the empty world. -/
def c6root (hashFn : List Nat → String) (user : String) : Commit :=
  { id := genId 1, parents := [], timestamp := 0, hash := hashFn [],
    author := user, mime := "text/plain", size := 0, is_head := true }

/-- World after creating `"f"` on the empty world. -/
def c6w1 (hashFn : List Nat → String) (user : String) : World :=
  { store := { commits := [c6root hashFn user],
               files := [{ path := "f", root_tweet_id := genId 1,
                           created_at := 0 }] },
    adapter := { tweets := [(genId 1, { id := genId 1, content := [],
                                        parent_id := none,
                                        author := "mock_user" })],
                 next_id := 2 },
    cache := [], clock := 1 }

/-- Handle returned by that create. -/
def c6h0 (user : String) : XFile :=
  { path := "f", head := genId 1, author := user }

theorem open_create_empty (hashFn : List Nat → String) (user : String)
    (fuel : Nat) :
    XFS.open hashFn user "f" OpenMode.Create fuel emptyWorld =
      (some (.ok (c6h0 user)), c6w1 hashFn user) := rfl

/-- First, second and third writes of the chain. -/
def c6x1 (hashFn : List Nat → String) (user : String) (d1 : List Nat) :
    XFile × World :=
  XFile.write hashFn (c6h0 user) d1 (c6w1 hashFn user)

def c6x2 (hashFn : List Nat → String) (user : String) (d1 d2 : List Nat) :
    XFile × World :=
  XFile.write hashFn (c6x1 hashFn user d1).1 d2 (c6x1 hashFn user d1).2

def c6x3 (hashFn : List Nat → String) (user : String) (d1 d2 d3 : List Nat) :
    XFile × World :=
  XFile.write hashFn (c6x2 hashFn user d1 d2).1 d3 (c6x2 hashFn user d1 d2).2

/-- Commit recorded by one write of the chain: fresh id `genId n`, sole
parent the previous head, full-data digest and size. -/
def c6wc (prev_head : TweetId) (n clock : Nat) (hashFn : List Nat → String)
    (user : String) (d : List Nat) : Commit :=
  { id := genId n, parents := [prev_head], timestamp := clock,
    hash := hashFn d, author := user, mime := "text/plain",
    size := d.length, is_head := true }

/-- Two distinct counter values generate different mock ids. -/
theorem genId_ne (a b : Nat) (h : a ≠ b) : (genId a == genId b) = false :=
  beq_eq_false_iff_ne.mpr (fun heq => h (genId_inj _ _ heq))

theorem c6_stage1 (hashFn : List Nat → String) (user : String) (d1 : List Nat) :
    (c6x1 hashFn user d1).1 = { path := "f", head := genId 2, author := user } ∧
    (c6x1 hashFn user d1).2.store.commits =
      [c6root hashFn user, c6wc (genId 1) 2 1 hashFn user d1] ∧
    (c6x1 hashFn user d1).2.adapter.next_id = 2 + (chunk_content d1).length ∧
    (c6x1 hashFn user d1).2.clock = 2 := by
  have hfresh : ∀ c ∈ (c6w1 hashFn user).store.commits,
      c.id ≠ genId (c6w1 hashFn user).adapter.next_id := by
    intro c hc
    have hc' : c = c6root hashFn user := by simpa [c6w1] using hc
    rw [hc']
    show genId 1 ≠ genId 2
    decide
  obtain ⟨h1, h2, h3, h4, h5, h6⟩ :=
    write_effect hashFn (c6h0 user) d1 (c6w1 hashFn user) hfresh
  exact ⟨h1, congrArg StoreState.commits h2, h5, h4⟩

theorem c6_stage2 (hashFn : List Nat → String) (user : String)
    (d1 d2 : List Nat) :
    (c6x2 hashFn user d1 d2).1 =
      { path := "f", head := genId (2 + (chunk_content d1).length),
        author := user } ∧
    (c6x2 hashFn user d1 d2).2.store.commits =
      [c6root hashFn user, c6wc (genId 1) 2 1 hashFn user d1,
       c6wc (genId 2) (2 + (chunk_content d1).length) 2 hashFn user d2] ∧
    (c6x2 hashFn user d1 d2).2.adapter.next_id =
      2 + (chunk_content d1).length + (chunk_content d2).length ∧
    (c6x2 hashFn user d1 d2).2.clock = 3 := by
  obtain ⟨s1a, s1b, s1c, s1d⟩ := c6_stage1 hashFn user d1
  have hm1 := chunk_content_length_pos d1
  have hfresh : ∀ c ∈ (c6x1 hashFn user d1).2.store.commits,
      c.id ≠ genId ((c6x1 hashFn user d1).2.adapter.next_id) := by
    intro c hc
    rw [s1b] at hc
    rw [s1c]
    rcases List.mem_cons.mp hc with rfl | hc2
    · show genId 1 ≠ genId (2 + (chunk_content d1).length)
      intro heq
      have := genId_inj _ _ heq
      omega
    · have hc' : c = c6wc (genId 1) 2 1 hashFn user d1 := by simpa using hc2
      rw [hc']
      show genId 2 ≠ genId (2 + (chunk_content d1).length)
      intro heq
      have := genId_inj _ _ heq
      omega
  obtain ⟨h1, h2, h3, h4, h5, h6⟩ :=
    write_effect hashFn (c6x1 hashFn user d1).1 d2 (c6x1 hashFn user d1).2 hfresh
  refine ⟨?_, ?_, ?_, ?_⟩
  · show (XFile.write hashFn (c6x1 hashFn user d1).1 d2 (c6x1 hashFn user d1).2).1 = _
    rw [h1, s1a, s1c]
  · show (XFile.write hashFn (c6x1 hashFn user d1).1 d2
      (c6x1 hashFn user d1).2).2.store.commits = _
    rw [h2, s1b]
    simp only [writtenCommit, s1a, s1c, s1d]
    rfl
  · show (XFile.write hashFn (c6x1 hashFn user d1).1 d2
      (c6x1 hashFn user d1).2).2.adapter.next_id = _
    rw [h5, s1c]
  · show (XFile.write hashFn (c6x1 hashFn user d1).1 d2
      (c6x1 hashFn user d1).2).2.clock = _
    rw [h4, s1d]

theorem c6_stage3 (hashFn : List Nat → String) (user : String)
    (d1 d2 d3 : List Nat) :
    (c6x3 hashFn user d1 d2 d3).1 =
      { path := "f",
        head := genId (2 + (chunk_content d1).length + (chunk_content d2).length),
        author := user } ∧
    (c6x3 hashFn user d1 d2 d3).2.store.commits =
      [c6root hashFn user,
       c6wc (genId 1) 2 1 hashFn user d1,
       c6wc (genId 2) (2 + (chunk_content d1).length) 2 hashFn user d2,
       c6wc (genId (2 + (chunk_content d1).length))
         (2 + (chunk_content d1).length + (chunk_content d2).length)
         3 hashFn user d3] ∧
    (c6x3 hashFn user d1 d2 d3).2.cache =
      ContentCache.put (c6x2 hashFn user d1 d2).2.cache
        (genId (2 + (chunk_content d1).length + (chunk_content d2).length)) d3 := by
  obtain ⟨s2a, s2b, s2c, s2d⟩ := c6_stage2 hashFn user d1 d2
  have hm1 := chunk_content_length_pos d1
  have hm2 := chunk_content_length_pos d2
  have hfresh : ∀ c ∈ (c6x2 hashFn user d1 d2).2.store.commits,
      c.id ≠ genId ((c6x2 hashFn user d1 d2).2.adapter.next_id) := by
    intro c hc
    rw [s2b] at hc
    rw [s2c]
    rcases List.mem_cons.mp hc with rfl | hc2
    · show genId 1 ≠
        genId (2 + (chunk_content d1).length + (chunk_content d2).length)
      intro heq
      have := genId_inj _ _ heq
      omega
    rcases List.mem_cons.mp hc2 with rfl | hc3
    · show genId 2 ≠
        genId (2 + (chunk_content d1).length + (chunk_content d2).length)
      intro heq
      have := genId_inj _ _ heq
      omega
    · have hc' : c = c6wc (genId 2) (2 + (chunk_content d1).length) 2
          hashFn user d2 := by simpa using hc3
      rw [hc']
      show genId (2 + (chunk_content d1).length) ≠
        genId (2 + (chunk_content d1).length + (chunk_content d2).length)
      intro heq
      have := genId_inj _ _ heq
      omega
  obtain ⟨h1, h2, h3, h4, h5, h6⟩ :=
    write_effect hashFn (c6x2 hashFn user d1 d2).1 d3
      (c6x2 hashFn user d1 d2).2 hfresh
  refine ⟨?_, ?_, ?_⟩
  · show (XFile.write hashFn (c6x2 hashFn user d1 d2).1 d3
      (c6x2 hashFn user d1 d2).2).1 = _
    rw [h1, s2a, s2c]
  · show (XFile.write hashFn (c6x2 hashFn user d1 d2).1 d3
      (c6x2 hashFn user d1 d2).2).2.store.commits = _
    rw [h2, s2b]
    simp only [writtenCommit, s2a, s2c, s2d]
    rfl
  · show (XFile.write hashFn (c6x2 hashFn user d1 d2).1 d3
      (c6x2 hashFn user d1 d2).2).2.cache = _
    rw [h3, s2c]

/-- `XFile::read` served from the cache. -/
theorem read_cache_hit (f : XFile) (w : World) (content : List Nat)
    (h : ContentCache.get w.cache f.head = some content) :
    (XFile.read f w).1 = .ok content := by
  unfold XFile.read
  rw [h]

/-- C6: starting from a freshly created file (root commit with empty
parents), three sequential writes through the one handle produce a commit
chain of length 4 (hence at least 4) in which each successive commit's sole
parent is the head produced by the previous step, and a final `read()` on
the handle returns the bytes passed to the last write, served from the cache
that write populated. -/
theorem C6_write_chain (hashFn : List Nat → String) (user : String)
    (fuel : Nat) (d1 d2 d3 : List Nat) :
    ∃ (h0 h1 h2 h3 : XFile) (w1 w2 w3 w4 : World),
      XFS.open hashFn user "f" OpenMode.Create fuel emptyWorld =
        (some (.ok h0), w1) ∧
      XFile.write hashFn h0 d1 w1 = (h1, w2) ∧
      XFile.write hashFn h1 d2 w2 = (h2, w3) ∧
      XFile.write hashFn h2 d3 w3 = (h3, w4) ∧
      (∃ c0, StoreState.get_commit w4.store h0.head = some c0 ∧
        c0.parents = []) ∧
      (∃ c1, StoreState.get_commit w4.store h1.head = some c1 ∧
        c1.parents = [h0.head]) ∧
      (∃ c2, StoreState.get_commit w4.store h2.head = some c2 ∧
        c2.parents = [h1.head]) ∧
      (∃ c3, StoreState.get_commit w4.store h3.head = some c3 ∧
        c3.parents = [h2.head]) ∧
      4 ≤ w4.store.commits.length ∧
      (XFile.read h3 w4).1 = .ok d3 := by
  obtain ⟨s1a, s1b, s1c, s1d⟩ := c6_stage1 hashFn user d1
  obtain ⟨s2a, s2b, s2c, s2d⟩ := c6_stage2 hashFn user d1 d2
  obtain ⟨s3a, s3b, s3cache⟩ := c6_stage3 hashFn user d1 d2 d3
  have hm1 := chunk_content_length_pos d1
  have hm2 := chunk_content_length_pos d2
  refine ⟨c6h0 user,
    { path := "f", head := genId 2, author := user },
    { path := "f", head := genId (2 + (chunk_content d1).length),
      author := user },
    { path := "f",
      head := genId (2 + (chunk_content d1).length + (chunk_content d2).length),
      author := user },
    c6w1 hashFn user,
    (c6x1 hashFn user d1).2,
    (c6x2 hashFn user d1 d2).2,
    (c6x3 hashFn user d1 d2 d3).2,
    open_create_empty hashFn user fuel, ?_, ?_, ?_, ?_, ?_, ?_, ?_, ?_, ?_⟩
  · exact Prod.ext s1a rfl
  · rw [← s1a]
    exact Prod.ext s2a rfl
  · rw [← s2a]
    exact Prod.ext s3a rfl
  · refine ⟨c6root hashFn user, ?_, rfl⟩
    show StoreState.get_commit (c6x3 hashFn user d1 d2 d3).2.store (genId 1) = _
    unfold StoreState.get_commit
    rw [s3b, List.find?_cons_of_pos _ (by simp [c6root])]
  · refine ⟨c6wc (genId 1) 2 1 hashFn user d1, ?_, rfl⟩
    show StoreState.get_commit (c6x3 hashFn user d1 d2 d3).2.store (genId 2) = _
    unfold StoreState.get_commit
    rw [s3b, List.find?_cons_of_neg _ (by simp [c6root]; decide),
      List.find?_cons_of_pos _ (by simp [c6wc])]
  · refine ⟨c6wc (genId 2) (2 + (chunk_content d1).length) 2 hashFn user d2,
      ?_, rfl⟩
    show StoreState.get_commit (c6x3 hashFn user d1 d2 d3).2.store
      (genId (2 + (chunk_content d1).length)) = _
    unfold StoreState.get_commit
    rw [s3b,
      List.find?_cons_of_neg _ (by
        simp only [c6root]
        simp [genId_ne 1 (2 + (chunk_content d1).length) (by omega)]),
      List.find?_cons_of_neg _ (by
        simp only [c6wc]
        simp [genId_ne 2 (2 + (chunk_content d1).length) (by omega)]),
      List.find?_cons_of_pos _ (by simp [c6wc])]
  · refine ⟨c6wc (genId (2 + (chunk_content d1).length))
      (2 + (chunk_content d1).length + (chunk_content d2).length)
      3 hashFn user d3, ?_, rfl⟩
    show StoreState.get_commit (c6x3 hashFn user d1 d2 d3).2.store
      (genId (2 + (chunk_content d1).length + (chunk_content d2).length)) = _
    unfold StoreState.get_commit
    rw [s3b,
      List.find?_cons_of_neg _ (by
        simp only [c6root]
        simp [genId_ne 1
          (2 + (chunk_content d1).length + (chunk_content d2).length) (by omega)]),
      List.find?_cons_of_neg _ (by
        simp only [c6wc]
        simp [genId_ne 2
          (2 + (chunk_content d1).length + (chunk_content d2).length) (by omega)]),
      List.find?_cons_of_neg _ (by
        simp only [c6wc]
        simp [genId_ne (2 + (chunk_content d1).length)
          (2 + (chunk_content d1).length + (chunk_content d2).length) (by omega)]),
      List.find?_cons_of_pos _ (by simp [c6wc])]
  · rw [s3b]
    simp
  · apply read_cache_hit
    show ContentCache.get (c6x3 hashFn user d1 d2 d3).2.cache
      (genId (2 + (chunk_content d1).length + (chunk_content d2).length)) =
      some d3
    rw [s3cache]
    exact cacheGet_put_self _ _ _

/-- C2: (a) on a loaded commit set forming a linear single-parent chain
root→c1→c2→c3, `find_head root` returns `c3`; (b) on a loaded set where two
childless descendants of the root carry different timestamps,
`detect_forks root` returns both of their identifiers and `find_head root`
returns the one with the later timestamp.  The sets are loaded by
`add_commit` from the empty graph in the listed order, as `XFS::find_head`
loads them. -/
theorem C2_head_and_forks :
    (∀ r c1 c2 c3 : Commit,
      r.parents = [] → c1.parents = [r.id] → c2.parents = [c1.id] →
      c3.parents = [c2.id] →
      r.id ≠ c1.id → r.id ≠ c2.id → r.id ≠ c3.id → c1.id ≠ c2.id →
      c1.id ≠ c3.id → c2.id ≠ c3.id →
      CommitGraph.find_head
        (CommitGraph.add_commit (CommitGraph.add_commit
          (CommitGraph.add_commit (CommitGraph.add_commit [] r) c1) c2) c3)
        r.id = .ok c3) ∧
    (∀ r x y : Commit,
      r.parents = [] → x.parents = [r.id] → y.parents = [r.id] →
      r.id ≠ x.id → r.id ≠ y.id → x.id ≠ y.id →
      x.timestamp ≠ y.timestamp →
      CommitGraph.detect_forks
        (CommitGraph.add_commit (CommitGraph.add_commit
          (CommitGraph.add_commit [] r) x) y) r.id = .ok [x.id, y.id] ∧
      (x.timestamp < y.timestamp →
        CommitGraph.find_head
          (CommitGraph.add_commit (CommitGraph.add_commit
            (CommitGraph.add_commit [] r) x) y) r.id = .ok y) ∧
      (y.timestamp < x.timestamp →
        CommitGraph.find_head
          (CommitGraph.add_commit (CommitGraph.add_commit
            (CommitGraph.add_commit [] r) x) y) r.id = .ok x)) := by
  constructor
  · intro r c1 c2 c3 hr h1 h2 h3 n01 n02 n03 n12 n13 n23
    have hg : CommitGraph.add_commit (CommitGraph.add_commit
        (CommitGraph.add_commit (CommitGraph.add_commit [] r) c1) c2) c3 =
        [r, c1, c2, c3] := by
      simp [CommitGraph.add_commit, n01, n02, n03, n12, n13, n23,
        n01.symm, n02.symm, n03.symm, n12.symm, n13.symm, n23.symm]
    rw [hg]
    simp [CommitGraph.find_head, CommitGraph.get_commit, reachFrom, reachLoop,
      scanStep, maxByTimestamp, hr, h1, h2, h3,
      n01, n02, n03, n12, n13, n23, n01.symm, n02.symm, n03.symm,
      n12.symm, n13.symm, n23.symm]
  · intro r x y hr hx hy n01 n02 n12 hts
    have hg : CommitGraph.add_commit (CommitGraph.add_commit
        (CommitGraph.add_commit [] r) x) y = [r, x, y] := by
      simp [CommitGraph.add_commit, n01, n02, n12,
        n01.symm, n02.symm, n12.symm]
    rw [hg]
    refine ⟨?_, ?_, ?_⟩
    · simp [CommitGraph.detect_forks, reachFrom, reachLoop, scanStep,
        hr, hx, hy, n01, n02, n12, n01.symm, n02.symm, n12.symm]
    · intro hlt
      simp [CommitGraph.find_head, CommitGraph.get_commit, reachFrom,
        reachLoop, scanStep, maxByTimestamp, hr, hx, hy,
        n01, n02, n12, n01.symm, n02.symm, n12.symm, Nat.le_of_lt hlt]
    · intro hlt
      simp [CommitGraph.find_head, CommitGraph.get_commit, reachFrom,
        reachLoop, scanStep, maxByTimestamp, hr, hx, hy,
        n01, n02, n12, n01.symm, n02.symm, n12.symm, Nat.not_le.mpr hlt]

/-- A commit of the C2 witness graphs. -/
def c2mk (id : TweetId) (parents : List TweetId) (ts : Nat) : Commit :=
  { id := id, parents := parents, timestamp := ts, hash := "h", author := "u",
    mime := "text/plain", size := 0, is_head := false }

/-- C2 witness: a concrete chain r→a→b→c resolves its head to `c`, and a
concrete fork with children at timestamps 1 < 2 reports both children and
resolves the head to the later one. -/
theorem C2_head_and_forks_witness :
    CommitGraph.find_head
      (CommitGraph.add_commit (CommitGraph.add_commit
        (CommitGraph.add_commit (CommitGraph.add_commit [] (c2mk "r" [] 0))
          (c2mk "a" ["r"] 1)) (c2mk "b" ["a"] 2)) (c2mk "c" ["b"] 3))
      "r" = .ok (c2mk "c" ["b"] 3) ∧
    CommitGraph.detect_forks
      (CommitGraph.add_commit (CommitGraph.add_commit
        (CommitGraph.add_commit [] (c2mk "r" [] 0)) (c2mk "a" ["r"] 1))
        (c2mk "b" ["r"] 2)) "r" = .ok ["a", "b"] ∧
    CommitGraph.find_head
      (CommitGraph.add_commit (CommitGraph.add_commit
        (CommitGraph.add_commit [] (c2mk "r" [] 0)) (c2mk "a" ["r"] 1))
        (c2mk "b" ["r"] 2)) "r" = .ok (c2mk "b" ["r"] 2) := by
  refine ⟨?_, ?_, ?_⟩
  · exact C2_head_and_forks.1 (c2mk "r" [] 0) (c2mk "a" ["r"] 1)
      (c2mk "b" ["a"] 2) (c2mk "c" ["b"] 3) rfl rfl rfl rfl
      (by decide) (by decide) (by decide) (by decide) (by decide) (by decide)
  · exact (C2_head_and_forks.2 (c2mk "r" [] 0) (c2mk "a" ["r"] 1)
      (c2mk "b" ["r"] 2) rfl rfl rfl
      (by decide) (by decide) (by decide) (by decide)).1
  · exact (C2_head_and_forks.2 (c2mk "r" [] 0) (c2mk "a" ["r"] 1)
      (c2mk "b" ["r"] 2) rfl rfl rfl
      (by decide) (by decide) (by decide) (by decide)).2.1 (by decide)

end XF
